import Mathlib

/-!
Shallow embedding of `plugins/upload/src/lib.rs` (tauri upload plugin):
the `download` and `upload` commands, their progress-emission closures,
header-map construction, and the error taxonomy.

Bytes are modelled as `Nat`, wall-clock instants as `Nat` milliseconds
(`Instant::elapsed` on a monotone clock is Nat subtraction of the stored
instant from the current one), and each chunk carries the instant at which
the loop body observes it.
-/

/-- `ProgressPayload { id: u32, progress: u64, total: u64 }` from lib.rs. -/
structure ProgressPayload where
  id : Nat
  progress : Nat
  total : Nat
deriving Repr, DecidableEq

/-- One byte chunk produced by a stream, together with the instant (ms) at
which the loop body observes it (the value of `Instant::now()` there). -/
structure Chunk where
  data : List Nat
  time : Nat
deriving Repr, DecidableEq

/-- `Duration::from_secs(1)` in milliseconds. -/
def emitInterval : Nat := 1000

/-- Kind carried inside a `reqwest::Error` (transport-level failure,
response-body decode failure, or request-body failure). -/
inductive ReqwestErrorKind where
  | transport
  | decode
  | body
deriving Repr, DecidableEq

/-- A `reqwest::Error`: its internal kind plus its display message. -/
structure ReqwestError where
  kind : ReqwestErrorKind
  msg : String
deriving Repr, DecidableEq

/-- A `std::io::Error`, reduced to its display message. -/
structure IoError where
  msg : String
deriving Repr, DecidableEq

/-- The plugin's error enum from lib.rs lines 24-32:
`Io(#[from] std::io::Error)`, `Request(#[from] reqwest::Error)`,
`ContentLength(String)`. -/
inductive Error where
  | Io : IoError → Error
  | Request : ReqwestError → Error
  | ContentLength : String → Error
deriving Repr, DecidableEq

/-- Discriminant of the plugin error variant: 0 = Io, 1 = Request,
2 = ContentLength. -/
def Error.tag : Error → Nat
  | .Io _ => 0
  | .Request _ => 1
  | .ContentLength _ => 2

/-- The `From<reqwest::Error> for Error` conversion (`#[from]` on the
`Request` variant), used by `?` on `send()`/`try_next()` and by
`map_err(Into::into)` on `response.json()`. -/
def intoError (e : ReqwestError) : Error := Error.Request e

/-- Loop-carried state of the `download` while-loop: the bytes written to
the buffered file writer, `temp_progress`, `last_emit_time`, and the list
of emitted progress payloads. -/
structure DlState where
  written : List Nat
  temp : Nat
  lastEmit : Nat
  emitted : List ProgressPayload
deriving Repr, DecidableEq

/-- One iteration of the `download` while-loop body on a successful chunk:
`file.write_all(&chunk)`, `temp_progress += chunk.len()`, then if
`last_emit_time.elapsed() >= 1s` emit `ProgressPayload { id, progress:
temp_progress, total }`, reset the timer and `temp_progress`. -/
def dlStep (id total : Nat) (s : DlState) (c : Chunk) : DlState :=
  let written := s.written ++ c.data
  let temp := s.temp + c.data.length
  if emitInterval ≤ c.time - s.lastEmit then
    { written := written, temp := 0, lastEmit := c.time,
      emitted := s.emitted ++ [⟨id, temp, total⟩] }
  else
    { written := written, temp := temp, lastEmit := s.lastEmit,
      emitted := s.emitted }

/-- What `stream.try_next().await?` / `file.write_all(..).await?` can
produce on one loop iteration: a chunk delivered and written, a stream
error, or a write error. -/
inductive LoopEvent where
  | chunk : Chunk → LoopEvent
  | streamFail : ReqwestError → LoopEvent
  | writeFail : IoError → LoopEvent
deriving Repr, DecidableEq

/-- The `download` while-loop: consumes events until the stream is
exhausted (`Ok(None)`) or a `?` propagates an error. -/
def dlLoop (id total : Nat) (s : DlState) : List LoopEvent → DlState × Option Error
  | [] => (s, none)
  | .chunk c :: rest => dlLoop id total (dlStep id total s c) rest
  | .streamFail e :: _ => (s, some (Error.Request e))
  | .writeFail e :: _ => (s, some (Error.Io e))

/-- Environment of one `download` call: outcome of `request.send()` (on
success, `response.content_length()`), of `File::create`, the loop events,
and the outcome of `file.flush()`. -/
structure DlEnv where
  sendResult : Except ReqwestError (Option Nat)
  createResult : Except IoError Unit
  events : List LoopEvent
  flushResult : Except IoError Unit
deriving Repr

/-- Observable outcome of a `download` call: the returned `Result`, the
progress payloads emitted on `download://progress`, and the bytes written
to the destination file writer. -/
structure DlOutcome where
  result : Except Error Nat
  emitted : List ProgressPayload
  written : List Nat
deriving Repr

/-- The `download` command from lib.rs: send the GET request, read
`content_length().unwrap_or(0)`, create the file, run the chunk loop,
emit the final residual payload if `temp_progress != 0`, flush, and
return `Ok(id)`. `startTime` is the `Instant::now()` stored in
`last_emit_time` before the loop. -/
def download (env : DlEnv) (id startTime : Nat) : DlOutcome :=
  match env.sendResult with
  | .error e => ⟨.error (Error.Request e), [], []⟩
  | .ok contentLength =>
    let total := contentLength.getD 0
    match env.createResult with
    | .error e => ⟨.error (Error.Io e), [], []⟩
    | .ok _ =>
      let p := dlLoop id total ⟨[], 0, startTime, []⟩ env.events
      match p.2 with
      | some e => ⟨.error e, p.1.emitted, p.1.written⟩
      | none =>
        let s := p.1
        let emitted :=
          if s.temp ≠ 0 then s.emitted ++ [⟨id, s.temp, total⟩] else s.emitted
        match env.flushResult with
        | .error e => ⟨.error (Error.Io e), emitted, s.written⟩
        | .ok _ => ⟨.ok id, emitted, s.written⟩

/-- State captured by the progress closure in `file_to_body`:
`temp_progress`, `last_emit_time`, the running total of bytes read
accumulated by the external `ReadProgressStream` adapter, and the emitted
payloads. -/
structure UlState where
  temp : Nat
  lastEmit : Nat
  totalRead : Nat
  emitted : List ProgressPayload
deriving Repr, DecidableEq

/-- One invocation of the `file_to_body` progress closure. The external
`read_progress_stream` adapter calls it once per chunk read from the file
with `progress` = the chunk's byte count and `total` = the running total of
bytes read so far. The closure body (lib.rs lines 146-159):
`temp_progress += progress`, then if `last_emit_time.elapsed() >= 1s` emit
`ProgressPayload { id, progress, total }` and reset `temp_progress` and the
timer. Note the emitted field is the callback argument `progress` (the
chunk delta), not `temp_progress`. -/
def ulStep (id : Nat) (s : UlState) (c : Chunk) : UlState :=
  let totalRead := s.totalRead + c.data.length
  let temp := s.temp + c.data.length
  if emitInterval ≤ c.time - s.lastEmit then
    { temp := 0, lastEmit := c.time, totalRead := totalRead,
      emitted := s.emitted ++ [⟨id, c.data.length, totalRead⟩] }
  else
    { temp := temp, lastEmit := s.lastEmit, totalRead := totalRead,
      emitted := s.emitted }

/-- A `serde_json::Value`: the structured value `response.json()` parses
the upload response body into. -/
inductive Json where
  | null : Json
  | bool : Bool → Json
  | num : Int → Json
  | str : String → Json
  | arr : List Json → Json
  | obj : List (String × Json) → Json

/-- Environment of one `upload` call: outcome of `File::open`, the chunks
the adapter streams through the request body (each observed by the
progress closure), the outcome of `request.send()` (covering transport and
body failures), and the outcome of `response.json()`. -/
structure UlEnv where
  openResult : Except IoError Unit
  chunks : List Chunk
  sendResult : Except ReqwestError Unit
  jsonResult : Except ReqwestError Json

/-- Observable outcome of an `upload` call: the returned `Result` (parsed
JSON on success) and the payloads emitted on `upload://progress`. -/
structure UlOutcome where
  result : Except Error Json
  emitted : List ProgressPayload

/-- The `upload` command from lib.rs: open the file, stream it as the PUT
body through `file_to_body` (the progress closure observes each chunk while
`send()` drives the body), then `response.json().await.map_err(Into::into)`.
There is no end-of-stream hook: the closure runs only per chunk, so nothing
is emitted after the last chunk. `startTime` is the `Instant::now()` stored
in `last_emit_time` when the body is built. -/
def upload (env : UlEnv) (id startTime : Nat) : UlOutcome :=
  match env.openResult with
  | .error e => ⟨.error (Error.Io e), []⟩
  | .ok _ =>
    let s := env.chunks.foldl (ulStep id) ⟨0, startTime, 0, []⟩
    match env.sendResult with
    | .error e => ⟨.error (Error.Request e), s.emitted⟩
    | .ok _ =>
      match env.jsonResult with
      | .error e => ⟨.error (Error.Request e), s.emitted⟩
      | .ok v => ⟨.ok v, s.emitted⟩

/-- Sum of the `progress` fields of a list of payloads. -/
def sumProgress (l : List ProgressPayload) : Nat :=
  (l.map ProgressPayload.progress).sum

/-- Total number of bytes carried by a list of chunks. -/
def bytesOf (chunks : List Chunk) : Nat :=
  (chunks.map (fun c => c.data.length)).sum

/-- A stream that delivers exactly these chunks and then ends cleanly. -/
def chunkEvents (chunks : List Chunk) : List LoopEvent :=
  chunks.map LoopEvent.chunk

/-- A fully successful download environment: request, file creation and
flush succeed, the stream delivers `chunks` and ends cleanly. -/
def dlOkEnv (contentLength : Option Nat) (chunks : List Chunk) : DlEnv :=
  ⟨.ok contentLength, .ok (), chunkEvents chunks, .ok ()⟩

/-- An upload environment whose file open succeeds and whose body streams
`chunks`, with the given send and json outcomes. -/
def ulEnv (chunks : List Chunk) (sendR : Except ReqwestError Unit)
    (jsonR : Except ReqwestError Json) : UlEnv :=
  ⟨.ok (), chunks, sendR, jsonR⟩

/-- `c.time` is at least `t`, and the chunk times are nondecreasing from
`t` on: the instants observed by a loop running on a monotone clock. -/
def timesMono : Nat → List Chunk → Prop
  | _, [] => True
  | t, c :: cs => t ≤ c.time ∧ timesMono c.time cs

/-- `HashMap::insert` semantics on an association list: replace the value
when the key is present, otherwise append the binding. Iterating the
resulting list visits each key once. -/
def hashMapInsert (m : List (String × String)) (k v : String) :
    List (String × String) :=
  if m.any (fun p => p.1 == k) then
    m.map (fun p => if p.1 == k then (k, v) else p)
  else
    m ++ [(k, v)]

/-- The `HashMap<String, String>` deserialized from the caller-supplied
`headers` argument, built by inserting the entries in order (later
duplicate keys overwrite earlier ones). -/
def hashMapOfList (entries : List (String × String)) :
    List (String × String) :=
  entries.foldl (fun m p => hashMapInsert m p.1 p.2) []

/-- The `for (key, value) in headers { request = request.header(&key, value) }`
loop: each map entry is appended once to the outbound request headers. -/
def requestHeaders (m : List (String × String)) : List (String × String) :=
  m.foldl (fun acc p => acc ++ [p]) []

/-- Value associated with the first binding of `k` in an association
list. -/
def assocLookup (m : List (String × String)) (k : String) : Option String :=
  (m.find? (fun p => p.1 == k)).map Prod.snd

/-- Left-biased choice on options. -/
def optOr : Option String → Option String → Option String
  | some v, _ => some v
  | none, o => o

theorem sumProgress_append (l l₂ : List ProgressPayload) :
    sumProgress (l ++ l₂) = sumProgress l + sumProgress l₂ := by
  simp [sumProgress]

theorem dlFold_conserve (id total : Nat) (chunks : List Chunk) (s : DlState) :
    sumProgress (chunks.foldl (dlStep id total) s).emitted
      + (chunks.foldl (dlStep id total) s).temp
      = sumProgress s.emitted + s.temp + bytesOf chunks := by
  induction chunks generalizing s with
  | nil => simp [bytesOf]
  | cons c cs ih =>
    rw [List.foldl_cons, ih]
    simp only [dlStep, bytesOf, List.map_cons, List.sum_cons]
    split
    · simp [sumProgress_append, sumProgress, bytesOf]
      ring
    · simp [bytesOf]
      ring

theorem dlFold_written (id total : Nat) (chunks : List Chunk) (s : DlState) :
    (chunks.foldl (dlStep id total) s).written
      = s.written ++ (chunks.map Chunk.data).flatten := by
  induction chunks generalizing s with
  | nil => simp
  | cons c cs ih =>
    rw [List.foldl_cons, ih]
    simp only [dlStep]
    split <;> simp

theorem dlFold_fields (id total : Nat) (chunks : List Chunk) (s : DlState)
    (h : ∀ p ∈ s.emitted, p.id = id ∧ p.total = total) :
    ∀ p ∈ (chunks.foldl (dlStep id total) s).emitted,
      p.id = id ∧ p.total = total := by
  induction chunks generalizing s with
  | nil => exact h
  | cons c cs ih =>
    rw [List.foldl_cons]
    refine ih _ ?_
    simp only [dlStep]
    split
    · intro p hp
      simp only [List.mem_append, List.mem_singleton] at hp
      rcases hp with hp | hp
      · exact h p hp
      · subst hp; exact ⟨rfl, rfl⟩
    · exact h

theorem dlLoop_chunks (id total : Nat) (chunks : List Chunk)
    (rest : List LoopEvent) (s : DlState) :
    dlLoop id total s (chunkEvents chunks ++ rest)
      = dlLoop id total (chunks.foldl (dlStep id total) s) rest := by
  induction chunks generalizing s with
  | nil => simp [chunkEvents]
  | cons c cs ih => simpa [chunkEvents, dlLoop] using ih (dlStep id total s c)

theorem dlLoop_chunks_nil (id total : Nat) (chunks : List Chunk) (s : DlState) :
    dlLoop id total s (chunkEvents chunks)
      = (chunks.foldl (dlStep id total) s, none) := by
  have h := dlLoop_chunks id total chunks [] s
  simpa [dlLoop] using h

theorem dlLoop_err_tag (id total : Nat) (events : List LoopEvent)
    (s : DlState) (e : Error) (h : (dlLoop id total s events).2 = some e) :
    e.tag ≠ 2 := by
  induction events generalizing s with
  | nil => simp [dlLoop] at h
  | cons ev rest ih =>
    cases ev with
    | chunk c => exact ih (dlStep id total s c) h
    | streamFail r =>
      simp only [dlLoop, Option.some.injEq] at h
      subst h; simp [Error.tag]
    | writeFail r =>
      simp only [dlLoop, Option.some.injEq] at h
      subst h; simp [Error.tag]

theorem timesMono_anti {t t₂ : Nat} {cs : List Chunk} (h : t ≤ t₂)
    (hm : timesMono t₂ cs) : timesMono t cs := by
  cases cs with
  | nil => trivial
  | cons c cs => exact ⟨le_trans h hm.1, hm.2⟩

/-- Shared rate-limit argument for both emission closures: any step
function that, on a chunk arriving at least `emitInterval` after the
stored instant, moves the stored instant to the chunk's time and emits one
sample, and otherwise leaves both unchanged, emits at most one sample per
`emitInterval` of elapsed time. -/
theorem rateAux {S : Type} (f : S → Chunk → S) (tm cnt : S → Nat)
    (hstep : ∀ s c,
      (emitInterval ≤ c.time - tm s →
        tm (f s c) = c.time ∧ cnt (f s c) = cnt s + 1)
      ∧ (¬ emitInterval ≤ c.time - tm s →
        tm (f s c) = tm s ∧ cnt (f s c) = cnt s)) :
    ∀ (chunks : List Chunk) (s : S) (B start : Nat),
      timesMono (tm s) chunks →
      (∀ c ∈ chunks, c.time ≤ B) →
      start + emitInterval * cnt s ≤ tm s →
      tm s ≤ B →
      start + emitInterval * cnt (chunks.foldl f s) ≤ tm (chunks.foldl f s)
        ∧ tm (chunks.foldl f s) ≤ B := by
  intro chunks
  induction chunks with
  | nil => intro s B start _ _ h1 h2; exact ⟨h1, h2⟩
  | cons c cs ih =>
    intro s B start hm hB h1 h2
    rw [List.foldl_cons]
    by_cases hemit : emitInterval ≤ c.time - tm s
    · have hfc := (hstep s c).1 hemit
      have hle : tm s ≤ c.time := hm.1
      have hc : tm s + emitInterval ≤ c.time := by omega
      refine ih (f s c) B start ?_ ?_ ?_ ?_
      · rw [hfc.1]; exact hm.2
      · intro x hx; exact hB x (List.mem_cons_of_mem _ hx)
      · rw [hfc.1, hfc.2, Nat.mul_succ]; omega
      · rw [hfc.1]; exact hB c (List.mem_cons_self _ _)
    · have hfc := (hstep s c).2 hemit
      refine ih (f s c) B start ?_ ?_ ?_ ?_
      · rw [hfc.1]; exact timesMono_anti hm.1 hm.2
      · intro x hx; exact hB x (List.mem_cons_of_mem _ hx)
      · rw [hfc.1, hfc.2]; exact h1
      · rw [hfc.1]; exact h2

theorem dlStep_rate (id total : Nat) (s : DlState) (c : Chunk) :
    (emitInterval ≤ c.time - s.lastEmit →
      (dlStep id total s c).lastEmit = c.time
      ∧ (dlStep id total s c).emitted.length = s.emitted.length + 1)
    ∧ (¬ emitInterval ≤ c.time - s.lastEmit →
      (dlStep id total s c).lastEmit = s.lastEmit
      ∧ (dlStep id total s c).emitted.length = s.emitted.length) := by
  constructor <;> intro h <;> simp [dlStep, h]

theorem ulStep_rate (id : Nat) (s : UlState) (c : Chunk) :
    (emitInterval ≤ c.time - s.lastEmit →
      (ulStep id s c).lastEmit = c.time
      ∧ (ulStep id s c).emitted.length = s.emitted.length + 1)
    ∧ (¬ emitInterval ≤ c.time - s.lastEmit →
      (ulStep id s c).lastEmit = s.lastEmit
      ∧ (ulStep id s c).emitted.length = s.emitted.length) := by
  constructor <;> intro h <;> simp [ulStep, h]

theorem optOr_assoc (a b c : Option String) :
    optOr (optOr a b) c = optOr a (optOr b c) := by
  cases a <;> simp [optOr]

theorem assocLookup_nil (k : String) : assocLookup [] k = none := rfl

theorem assocLookup_append (l₁ l₂ : List (String × String)) (k : String) :
    assocLookup (l₁ ++ l₂) k = optOr (assocLookup l₁ k) (assocLookup l₂ k) := by
  induction l₁ with
  | nil => simp [assocLookup, optOr]
  | cons p l ih =>
    simp only [List.cons_append, assocLookup, List.find?]
    cases hpk : (p.1 == k) with
    | true => simp [optOr]
    | false => simpa [assocLookup] using ih

theorem assocLookup_cons (p : String × String) (l : List (String × String))
    (k : String) :
    assocLookup (p :: l) k
      = if p.1 == k then some p.2 else assocLookup l k := by
  simp only [assocLookup, List.find?]
  cases h : (p.1 == k) <;> simp

theorem assocLookup_map_insert_self (m : List (String × String))
    (k v : String) (h : m.any (fun p => p.1 == k) = true) :
    assocLookup (m.map (fun p => if p.1 == k then (k, v) else p)) k
      = some v := by
  induction m with
  | nil => simp at h
  | cons p l ih =>
    rw [List.map_cons, assocLookup_cons]
    by_cases hpk : (p.1 == k) = true
    · rw [if_pos hpk]
      simp
    · rw [if_neg hpk]
      have hfalse : (p.1 == k) = false := Bool.eq_false_iff.mpr hpk
      rw [hfalse, if_neg (by simp)]
      simp only [List.any_cons, hfalse, Bool.false_or] at h
      exact ih h

theorem assocLookup_map_insert_other (m : List (String × String))
    (k v k₂ : String) (h : ¬ k₂ = k) :
    assocLookup (m.map (fun p => if p.1 == k then (k, v) else p)) k₂
      = assocLookup m k₂ := by
  induction m with
  | nil => rfl
  | cons p l ih =>
    rw [List.map_cons, assocLookup_cons, assocLookup_cons p l k₂]
    by_cases hpk : (p.1 == k) = true
    · have hp1 : p.1 = k := by simpa using hpk
      have h1 : (k == k₂) = false := by
        simp only [beq_eq_false_iff_ne, ne_eq]
        intro hkk; exact h hkk.symm
      have h2 : (p.1 == k₂) = false := by rw [hp1]; exact h1
      rw [if_pos hpk]
      simp only [h1, h2, if_neg (by simp : ¬ (false = true))]
      exact ih
    · rw [if_neg hpk]
      cases hpk2 : (p.1 == k₂) with
      | true => simp
      | false =>
        rw [if_neg (by simp : ¬ (false = true)),
          if_neg (by simp : ¬ (false = true))]
        exact ih

theorem assocLookup_insert (m : List (String × String)) (k v k₂ : String) :
    assocLookup (hashMapInsert m k v) k₂
      = if k₂ = k then some v else assocLookup m k₂ := by
  by_cases hany : m.any (fun p => p.1 == k) = true
  · rw [hashMapInsert, if_pos hany]
    by_cases hk : k₂ = k
    · subst hk
      rw [assocLookup_map_insert_self m k₂ v hany, if_pos rfl]
    · rw [assocLookup_map_insert_other m k v k₂ hk, if_neg hk]
  · rw [hashMapInsert, if_neg hany]
    rw [assocLookup_append]
    by_cases hk : k₂ = k
    · subst hk
      have hfind : List.find? (fun p => p.1 == k₂) m = none := by
        rw [List.find?_eq_none]
        intro x hx
        have hall := (List.any_eq_false).mp (Bool.eq_false_iff.mpr hany) x hx
        simpa using hall
      have hnone : assocLookup m k₂ = none := by
        simp [assocLookup, hfind]
      rw [hnone]
      simp [optOr, assocLookup, List.find?]
    · have h1 : assocLookup [(k, v)] k₂ = none := by
        have hne : (k == k₂) = false := by
          simp only [beq_eq_false_iff_ne, ne_eq]
          intro hkk; exact hk hkk.symm
        simp [assocLookup, List.find?, hne]
      rw [h1]
      cases hres : assocLookup m k₂ <;> simp [optOr, if_neg hk]

theorem hashMapOfList_lookup_aux (entries : List (String × String))
    (m : List (String × String)) (k : String) :
    assocLookup (entries.foldl (fun acc p => hashMapInsert acc p.1 p.2) m) k
      = optOr (assocLookup entries.reverse k) (assocLookup m k) := by
  induction entries generalizing m with
  | nil => simp [assocLookup, optOr]
  | cons p es ih =>
    rw [List.foldl_cons, ih]
    rw [List.reverse_cons, assocLookup_append, optOr_assoc]
    congr 1
    by_cases hk : k = p.1
    · rw [assocLookup_insert, if_pos hk]
      have hbeq : (p.1 == k) = true := by simp [hk]
      simp [assocLookup_cons, assocLookup_nil, hbeq, optOr]
    · rw [assocLookup_insert, if_neg hk]
      have hbeq : (p.1 == k) = false := by
        simp only [beq_eq_false_iff_ne, ne_eq]
        intro hkk; exact hk hkk.symm
      cases hres : assocLookup m k <;>
        simp [assocLookup_cons, assocLookup_nil, hbeq, optOr, hres]

theorem hashMapInsert_keys_nodup (m : List (String × String)) (k v : String)
    (h : (m.map Prod.fst).Nodup) :
    ((hashMapInsert m k v).map Prod.fst).Nodup := by
  by_cases hany : m.any (fun p => p.1 == k) = true
  · rw [hashMapInsert, if_pos hany]
    have heq : (m.map (fun p => if p.1 == k then (k, v) else p)).map Prod.fst
        = m.map Prod.fst := by
      rw [List.map_map]
      apply List.map_congr_left
      intro p _
      by_cases hpk : (p.1 == k) = true
      · have hp1 : p.1 = k := by simpa using hpk
        simp [Function.comp, if_pos hpk, hp1]
      · have hne : ¬ p.1 = k := by simpa using hpk
        simp [Function.comp, hne]
    rw [heq]; exact h
  · rw [hashMapInsert, if_neg hany]
    rw [List.map_append, List.nodup_append]
    refine ⟨h, by simp, ?_⟩
    intro a ha hb
    simp only [List.map_cons, List.map_nil, List.mem_singleton] at hb
    subst hb
    rcases List.mem_map.mp ha with ⟨p, hp, hfst⟩
    have hall := (List.any_eq_false).mp (Bool.eq_false_iff.mpr hany) p hp
    rw [hfst] at hall
    simp at hall

theorem hashMapOfList_keys_nodup (entries : List (String × String)) :
    ((hashMapOfList entries).map Prod.fst).Nodup := by
  rw [hashMapOfList]
  have haux : ∀ (es : List (String × String)) (m : List (String × String)),
      (m.map Prod.fst).Nodup →
      ((es.foldl (fun acc p => hashMapInsert acc p.1 p.2) m).map
        Prod.fst).Nodup := by
    intro es
    induction es with
    | nil => intro m hm; exact hm
    | cons p l ih =>
      intro m hm
      rw [List.foldl_cons]
      exact ih _ (hashMapInsert_keys_nodup m p.1 p.2 hm)
  exact haux entries [] (by simp)

theorem requestHeaders_eq (m : List (String × String)) :
    requestHeaders m = m := by
  rw [requestHeaders]
  have haux : ∀ (l acc : List (String × String)),
      l.foldl (fun acc p => acc ++ [p]) acc = acc ++ l := by
    intro l
    induction l with
    | nil => simp
    | cons p l ih => intro acc; rw [List.foldl_cons, ih]; simp
  simpa using haux m []

/-- C1: the claim states that for every completed transfer the sum of emitted
`progress` values equals the bytes transferred. The download pipeline honours
this, but the upload progress closure emits only the triggering chunk's byte
count while resetting the separately maintained accumulator it never emits:
on a successful 5-byte upload delivered as a 3-byte chunk at 0 ms and a 2-byte
chunk at 1000 ms, the sole emitted sample carries progress 2, so the emitted
progress sums to 2, not 5 — the 3 accumulated bytes are dropped, contradicting
progress conservation. -/
theorem C1_upload_progress_dropped :
    (upload (ulEnv [⟨[1, 2, 3], 0⟩, ⟨[4, 5], 1000⟩] (.ok ()) (.ok .null))
        7 0).result = .ok .null
    ∧ bytesOf [⟨[1, 2, 3], 0⟩, ⟨[4, 5], 1000⟩] = 5
    ∧ (upload (ulEnv [⟨[1, 2, 3], 0⟩, ⟨[4, 5], 1000⟩] (.ok ()) (.ok .null))
        7 0).emitted = [⟨7, 2, 5⟩]
    ∧ sumProgress (upload (ulEnv [⟨[1, 2, 3], 0⟩, ⟨[4, 5], 1000⟩]
        (.ok ()) (.ok .null)) 7 0).emitted = 2 :=
  ⟨rfl, rfl, rfl, rfl⟩

/-- C2 counterexample: a successful one-chunk 5-byte upload finishing inside
the 1-second window reaches the end of its chunk sequence with an accumulated
not-yet-emitted byte count of 5, yet emits no final sample: the upload
pipeline has no end-of-stream residual emission, refuting the claim for
uploads. -/
theorem C2_counterexample :
    (upload (ulEnv [⟨[1, 2, 3, 4, 5], 10⟩] (.ok ()) (.ok .null)) 7 0).result
      = .ok .null
    ∧ ([Chunk.mk [1, 2, 3, 4, 5] 10].foldl (ulStep 7) ⟨0, 0, 0, []⟩).temp = 5
    ∧ (upload (ulEnv [⟨[1, 2, 3, 4, 5], 10⟩] (.ok ()) (.ok .null)) 7 0).emitted
      = [] :=
  ⟨rfl, rfl, rfl⟩

/-- C2 amended: in download, when the chunk sequence is exhausted without
error, exactly one final sample carrying the residual (the transferred bytes
not yet reported) is emitted when that residual is nonzero and none when it is
zero — in particular an empty download emits no samples; in upload, no final
residual sample is ever emitted: the emitted samples are exactly those of the
per-chunk closure. -/
theorem C2_download_residual (id start : Nat) (cl : Option Nat)
    (chunks : List Chunk) (flushR : Except IoError Unit) (v : Json) :
    (download ⟨.ok cl, .ok (), chunkEvents chunks, flushR⟩ id start).emitted
      = (if bytesOf chunks
            - sumProgress (chunks.foldl (dlStep id (cl.getD 0))
                ⟨[], 0, start, []⟩).emitted ≠ 0
         then (chunks.foldl (dlStep id (cl.getD 0))
                ⟨[], 0, start, []⟩).emitted
              ++ [⟨id, bytesOf chunks
                    - sumProgress (chunks.foldl (dlStep id (cl.getD 0))
                        ⟨[], 0, start, []⟩).emitted, cl.getD 0⟩]
         else (chunks.foldl (dlStep id (cl.getD 0))
                ⟨[], 0, start, []⟩).emitted)
    ∧ (download ⟨.ok cl, .ok (), chunkEvents [], .ok ()⟩ id start).emitted = []
    ∧ (upload (ulEnv chunks (.ok ()) (.ok v)) id start).emitted
      = (chunks.foldl (ulStep id) ⟨0, start, 0, []⟩).emitted := by
  have hcons := dlFold_conserve id (cl.getD 0) chunks ⟨[], 0, start, []⟩
  simp only [sumProgress, List.map_nil, List.sum_nil] at hcons
  have hres : bytesOf chunks
      - sumProgress (chunks.foldl (dlStep id (cl.getD 0))
          ⟨[], 0, start, []⟩).emitted
      = (chunks.foldl (dlStep id (cl.getD 0)) ⟨[], 0, start, []⟩).temp := by
    simp only [sumProgress]
    omega
  refine ⟨?_, rfl, rfl⟩
  rw [hres]
  simp only [download, dlLoop_chunks_nil]
  cases flushR <;> rfl

/-- C3: in both pipelines a (non-final) progress sample is emitted on a chunk
exactly when at least `emitInterval` (1 s) of wall-clock time has elapsed
since the previous emission (or since the transfer started), and the emission
resets the timer to the chunk's instant and the accumulated byte counter to
0; consequently a transfer whose chunks all arrive within `T` seconds of the
start emits at most `T = ceil(T s / 1 s)` samples excluding the final
residual. -/
theorem C3_rate_limit (id total start T : Nat) (chunks : List Chunk)
    (hmono : timesMono start chunks)
    (hbound : ∀ c ∈ chunks, c.time ≤ start + emitInterval * T) :
    (chunks.foldl (dlStep id total) ⟨[], 0, start, []⟩).emitted.length ≤ T
    ∧ (chunks.foldl (ulStep id) ⟨0, start, 0, []⟩).emitted.length ≤ T
    ∧ (∀ (s : DlState) (c : Chunk),
        (dlStep id total s c).emitted.length = s.emitted.length + 1
          ↔ emitInterval ≤ c.time - s.lastEmit)
    ∧ (∀ (s : DlState) (c : Chunk), emitInterval ≤ c.time - s.lastEmit →
        (dlStep id total s c).temp = 0
          ∧ (dlStep id total s c).lastEmit = c.time)
    ∧ (∀ (s : UlState) (c : Chunk),
        (ulStep id s c).emitted.length = s.emitted.length + 1
          ↔ emitInterval ≤ c.time - s.lastEmit)
    ∧ (∀ (s : UlState) (c : Chunk), emitInterval ≤ c.time - s.lastEmit →
        (ulStep id s c).temp = 0 ∧ (ulStep id s c).lastEmit = c.time) := by
  refine ⟨?_, ?_, ?_, ?_, ?_, ?_⟩
  · have hdl := rateAux (dlStep id total) DlState.lastEmit
      (fun s => s.emitted.length) (fun s c => dlStep_rate id total s c)
      chunks ⟨[], 0, start, []⟩ (start + emitInterval * T) start hmono hbound
      (by simp) (Nat.le_add_right _ _)
    have h1 := hdl.1
    have h2 := hdl.2
    simp only [emitInterval] at h1 h2 ⊢
    omega
  · have hul := rateAux (ulStep id) UlState.lastEmit
      (fun s => s.emitted.length) (fun s c => ulStep_rate id s c)
      chunks ⟨0, start, 0, []⟩ (start + emitInterval * T) start hmono hbound
      (by simp) (Nat.le_add_right _ _)
    have h1 := hul.1
    have h2 := hul.2
    simp only [emitInterval] at h1 h2 ⊢
    omega
  · intro s c
    constructor
    · intro hlen
      by_contra hno
      have := ((dlStep_rate id total s c).2 hno).2
      omega
    · intro hyes
      exact ((dlStep_rate id total s c).1 hyes).2
  · intro s c hyes
    simp [dlStep, hyes]
  · intro s c
    constructor
    · intro hlen
      by_contra hno
      have := ((ulStep_rate id s c).2 hno).2
      omega
    · intro hyes
      exact ((ulStep_rate id s c).1 hyes).2
  · intro s c hyes
    simp [ulStep, hyes]

/-- C3 witness: the hypotheses of `C3_rate_limit` hold for a transfer whose
two chunks arrive at 0 ms and 1500 ms within a 2-second window, and the
download pipeline then emits at most 2 samples. -/
theorem C3_rate_limit_witness :
    timesMono 0 [⟨[1, 2], 0⟩, ⟨[3], 1500⟩]
    ∧ ([Chunk.mk [1, 2] 0, Chunk.mk [3] 1500].foldl (dlStep 7 9)
        ⟨[], 0, 0, []⟩).emitted.length ≤ 2 :=
  ⟨by simp [timesMono],
   (C3_rate_limit 7 9 0 2 [⟨[1, 2], 0⟩, ⟨[3], 1500⟩]
     (by simp [timesMono]) (by decide)).1⟩

/-- C4: when the response byte stream fails after delivering some chunks, the
download returns the propagated transport error, the emitted samples are
exactly those of the loop up to the failure (no further sample, in particular
no residual sample, is emitted), and the bytes accumulated since the last
emitted sample — the difference between the bytes delivered and the sum of
the emitted progress values — are never reported in any sample. -/
theorem C4_midstream_error (id start : Nat) (cl : Option Nat)
    (chunks : List Chunk) (e : ReqwestError) (flushR : Except IoError Unit) :
    (download ⟨.ok cl, .ok (), chunkEvents chunks ++ [.streamFail e],
        flushR⟩ id start).result = .error (Error.Request e)
    ∧ (download ⟨.ok cl, .ok (), chunkEvents chunks ++ [.streamFail e],
        flushR⟩ id start).emitted
      = (chunks.foldl (dlStep id (cl.getD 0)) ⟨[], 0, start, []⟩).emitted
    ∧ sumProgress (download ⟨.ok cl, .ok (),
        chunkEvents chunks ++ [.streamFail e], flushR⟩ id start).emitted
      + (chunks.foldl (dlStep id (cl.getD 0)) ⟨[], 0, start, []⟩).temp
      = bytesOf chunks := by
  have hcons := dlFold_conserve id (cl.getD 0) chunks ⟨[], 0, start, []⟩
  simp only [sumProgress, List.map_nil, List.sum_nil] at hcons
  refine ⟨?_, ?_, ?_⟩
  · simp only [download, dlLoop_chunks, dlLoop]
  · simp only [download, dlLoop_chunks, dlLoop]
  · simp only [download, dlLoop_chunks, dlLoop, sumProgress]
    omega

/-- C5: a successful download returns `Ok(id)` and the bytes written to the
destination file are exactly the concatenation of the response-body chunks in
arrival order. -/
theorem C5_passthrough (id start : Nat) (cl : Option Nat)
    (chunks : List Chunk) :
    (download (dlOkEnv cl chunks) id start).result = .ok id
    ∧ (download (dlOkEnv cl chunks) id start).written
      = (chunks.map Chunk.data).flatten := by
  have hw := dlFold_written id (cl.getD 0) chunks ⟨[], 0, start, []⟩
  constructor
  · simp only [download, dlOkEnv, dlLoop_chunks_nil]
  · simp only [download, dlOkEnv, dlLoop_chunks_nil]
    simpa using hw

/-- C6: a successful download returns the caller-supplied `id`, and every
progress sample it emits carries `total` equal to the response's declared
content length (`0` when the response declares none, i.e.
`content_length().unwrap_or(0)`) and `id` equal to the supplied transfer
id. -/
theorem C6_id_total (id start : Nat) (cl : Option Nat) (chunks : List Chunk) :
    (download (dlOkEnv cl chunks) id start).result = .ok id
    ∧ ∀ p ∈ (download (dlOkEnv cl chunks) id start).emitted,
        p.total = cl.getD 0 ∧ p.id = id := by
  have hfields := dlFold_fields id (cl.getD 0) chunks ⟨[], 0, start, []⟩
    (by intro p hp; simp at hp)
  constructor
  · simp only [download, dlOkEnv, dlLoop_chunks_nil]
  · simp only [download, dlOkEnv, dlLoop_chunks_nil]
    intro p hp
    by_cases htemp : (chunks.foldl (dlStep id (cl.getD 0))
        ⟨[], 0, start, []⟩).temp ≠ 0
    · rw [if_pos htemp] at hp
      rcases List.mem_append.mp hp with hmem | hmem
      · exact ⟨(hfields p hmem).2, (hfields p hmem).1⟩
      · rcases List.mem_singleton.mp hmem with rfl
        exact ⟨rfl, rfl⟩
    · rw [if_neg htemp] at hp
      exact ⟨(hfields p hp).2, (hfields p hp).1⟩

/-- C6 witness: for a download with declared content length 42 whose single
1-byte chunk arrives at 1000 ms, the emitted sample carries total 42 and
id 7, and the call returns `Ok(7)`. -/
theorem C6_id_total_witness :
    (download (dlOkEnv (some 42) [⟨[9], 1000⟩]) 7 0).result = .ok 7
    ∧ ((⟨7, 1, 42⟩ : ProgressPayload).total = 42
        ∧ (⟨7, 1, 42⟩ : ProgressPayload).id = 7) :=
  ⟨(C6_id_total 7 0 (some 42) [⟨[9], 1000⟩]).1,
   (C6_id_total 7 0 (some 42) [⟨[9], 1000⟩]).2 ⟨7, 1, 42⟩ (by decide)⟩

/-- C7: the header map built from the caller-supplied entries has pairwise
distinct keys, the request-building loop adds exactly the map's entries (one
outbound header per entry), looking up any key in the map yields the value of
the last entry supplied for that key, and in particular supplying
`{"X":"1"}` then `{"X":"2"}` makes the effective outbound value `"2"`. -/
theorem C7_header_override (entries : List (String × String)) (k : String) :
    ((hashMapOfList entries).map Prod.fst).Nodup
    ∧ requestHeaders (hashMapOfList entries) = hashMapOfList entries
    ∧ assocLookup (hashMapOfList entries) k = assocLookup entries.reverse k
    ∧ assocLookup (requestHeaders (hashMapOfList [("X", "1"), ("X", "2")])) "X"
      = some "2" := by
  refine ⟨hashMapOfList_keys_nodup entries, requestHeaders_eq _, ?_, ?_⟩
  · have haux := hashMapOfList_lookup_aux entries [] k
    rw [hashMapOfList]
    rw [haux]
    cases h : assocLookup entries.reverse k <;> simp [optOr, assocLookup]
  · decide

/-- C8 counterexample: a response-body parse failure and a transport failure
are reported through the very same `Request` variant of the plugin's error
taxonomy, so a parse failure does not produce an error of a kind distinct
from a transport-level failure. -/
theorem C8_counterexample :
    (upload (ulEnv [] (.ok ())
        (.error ⟨.decode, "error decoding response body"⟩)) 7 0).result
      = .error (Error.Request ⟨.decode, "error decoding response body"⟩)
    ∧ (upload (ulEnv [] (.error ⟨.transport, "connection refused"⟩)
        (.ok .null)) 7 0).result
      = .error (Error.Request ⟨.transport, "connection refused"⟩)
    ∧ Error.tag (Error.Request ⟨.decode, "error decoding response body"⟩)
      = Error.tag (Error.Request ⟨.transport, "connection refused"⟩) :=
  ⟨rfl, rfl, rfl⟩

/-- C8 amended: when the HTTP request of an upload succeeds, the parsed JSON
body is returned as the success payload; a parse failure is reported as an
error, but `map_err(Into::into)` places it in the same `Request` variant as
transport-level failures — the plugin-level kind is distinct from `Io` and
`ContentLength` only, and the parse/transport distinction survives only in
the wrapped reqwest error's own kind. -/
theorem C8_parse_error_kind (chunks : List Chunk) (id start : Nat) (v : Json)
    (e t : ReqwestError) (ioe : IoError) (msg : String) :
    (upload (ulEnv chunks (.ok ()) (.ok v)) id start).result = .ok v
    ∧ (upload (ulEnv chunks (.ok ()) (.error e)) id start).result
      = .error (intoError e)
    ∧ Error.tag (intoError e) = Error.tag (Error.Request t)
    ∧ Error.tag (intoError e) ≠ Error.tag (Error.Io ioe)
    ∧ Error.tag (intoError e) ≠ Error.tag (Error.ContentLength msg) :=
  ⟨rfl, rfl, rfl, by simp [intoError, Error.tag], by simp [intoError, Error.tag]⟩

theorem download_err_tag (env : DlEnv) (id start : Nat) (e : Error)
    (h : (download env id start).result = .error e) : e.tag ≠ 2 := by
  obtain ⟨sendR, createR, events, flushR⟩ := env
  cases sendR with
  | error r =>
    simp only [download] at h
    cases h
    simp [Error.tag]
  | ok cl =>
    cases createR with
    | error ioe =>
      simp only [download] at h
      cases h
      simp [Error.tag]
    | ok u =>
      simp only [download] at h
      cases hl : (dlLoop id (cl.getD 0) ⟨[], 0, start, []⟩ events).2 with
      | some er =>
        rw [hl] at h
        simp only at h
        cases h
        exact dlLoop_err_tag id (cl.getD 0) events _ _ hl
      | none =>
        rw [hl] at h
        cases flushR with
        | error ioe =>
          simp only at h
          cases h
          simp [Error.tag]
        | ok u2 => simp at h

theorem upload_err_tag (env : UlEnv) (id start : Nat) (e : Error)
    (h : (upload env id start).result = .error e) : e.tag ≠ 2 := by
  obtain ⟨openR, chunks, sendR, jsonR⟩ := env
  cases openR with
  | error ioe =>
    simp only [upload] at h
    cases h
    simp [Error.tag]
  | ok u =>
    cases sendR with
    | error r =>
      simp only [upload] at h
      cases h
      simp [Error.tag]
    | ok u2 =>
      cases jsonR with
      | error r =>
        simp only [upload] at h
        cases h
        simp [Error.tag]
      | ok v =>
        simp only [upload] at h
        cases h

/-- C9: no execution of `download` or `upload` returns an error of the
`ContentLength` kind — that variant of the plugin error taxonomy is never
constructed by either operation. -/
theorem C9_no_content_length (envD : DlEnv) (envU : UlEnv) (id start : Nat)
    (e₁ e₂ : Error) (h₁ : (download envD id start).result = .error e₁)
    (h₂ : (upload envU id start).result = .error e₂) :
    e₁.tag ≠ 2 ∧ e₂.tag ≠ 2 :=
  ⟨download_err_tag envD id start e₁ h₁, upload_err_tag envU id start e₂ h₂⟩

/-- C9 witness: a download whose GET fails with a transport error and an
upload whose file open fails both return errors, and neither is of the
`ContentLength` kind. -/
theorem C9_no_content_length_witness :
    Error.tag (Error.Request ⟨.transport, "dns"⟩) ≠ 2
    ∧ Error.tag (Error.Io ⟨"open"⟩) ≠ 2 :=
  C9_no_content_length ⟨.error ⟨.transport, "dns"⟩, .ok (), [], .ok ()⟩
    ⟨.error ⟨"open"⟩, [], .ok (), .ok .null⟩ 7 0
    (Error.Request ⟨.transport, "dns"⟩) (Error.Io ⟨"open"⟩) rfl rfl

/-- C10: in `download` the final residual sample is emitted before the
buffered writer is flushed: when the loop ends with a nonzero residual and
the flush then fails, the call returns the flush error, yet the emitted
samples already include the final residual sample — an error return does not
imply the final sample was withheld. -/
theorem C10_residual_before_flush (id start : Nat) (cl : Option Nat)
    (chunks : List Chunk) (fe : IoError)
    (hres : (chunks.foldl (dlStep id (cl.getD 0))
        ⟨[], 0, start, []⟩).temp ≠ 0) :
    (download ⟨.ok cl, .ok (), chunkEvents chunks, .error fe⟩ id start).result
      = .error (Error.Io fe)
    ∧ (download ⟨.ok cl, .ok (), chunkEvents chunks, .error fe⟩
        id start).emitted
      = (chunks.foldl (dlStep id (cl.getD 0)) ⟨[], 0, start, []⟩).emitted
        ++ [⟨id, (chunks.foldl (dlStep id (cl.getD 0))
              ⟨[], 0, start, []⟩).temp, cl.getD 0⟩] := by
  constructor
  · simp only [download, dlLoop_chunks_nil]
  · simp only [download, dlLoop_chunks_nil]
    rw [if_pos hres]

/-- C10 witness: a one-chunk download finishing inside the 1-second window
with a failing flush returns the flush error while its emitted samples end
with the residual sample. -/
theorem C10_residual_before_flush_witness :
    (download ⟨.ok (some 5), .ok (), chunkEvents [⟨[9], 0⟩],
        .error ⟨"flush"⟩⟩ 7 0).result = .error (Error.Io ⟨"flush"⟩)
    ∧ (download ⟨.ok (some 5), .ok (), chunkEvents [⟨[9], 0⟩],
        .error ⟨"flush"⟩⟩ 7 0).emitted
      = ([Chunk.mk [9] 0].foldl (dlStep 7 5) ⟨[], 0, 0, []⟩).emitted
        ++ [⟨7, ([Chunk.mk [9] 0].foldl (dlStep 7 5)
              ⟨[], 0, 0, []⟩).temp, 5⟩] :=
  C10_residual_before_flush 7 0 (some 5) [⟨[9], 0⟩] ⟨"flush"⟩ (by decide)
